import Mathlib

/-!
Verification development for the EnchantedNote plugin core.

Documents are modelled as `List Char`; the JavaScript regular expressions of
`src/utils/parser.ts` are embedded as explicit scanning functions with the
exact semantics of the patterns used there (non-greedy `(.*?)` with `.` not
matching a newline, greedy `[^\]]*`, global scanning that restarts after the
end of the previous match and never rescans replaced output).
-/

abbrev Str := List Char

/-- The literal opener of `/::muse\[(.*?)\]::/`. -/
def inlineMuseOpen : Str := "::muse[".toList

/-- The literal opener of `/::whisper\[(.*?)\]::/`. -/
def inlineWhisperOpen : Str := "::whisper[".toList

/-- The literal opener of `/:::muse\n([\s\S]*?)\n:::/`. -/
def mlMuseOpen : Str := ":::muse\n".toList

/-- The literal opener of `/:::whisper\n([\s\S]*?)\n:::/`. -/
def mlWhisperOpen : Str := ":::whisper\n".toList

/-- The closing delimiter of the inline forms. -/
def inlineClose : Str := "]::".toList

/-- Non-greedy scan for the inline body `(.*?)\]::` where `.` does not match a
newline: the payload runs to the first occurrence of the closer, and a newline
before the closer aborts the match. Returns the payload and the remainder
after the closer. -/
def scanInline : Str → Option (Str × Str)
  | [] => none
  | c :: cs =>
    if inlineClose.isPrefixOf (c :: cs) then some ([], cs.drop 2)
    else if c = '\n' then none
    else (scanInline cs).map (fun pr => (c :: pr.1, pr.2))

/-- Greedy scan for `([^\]]*)\]::` (the placeholder-rewrite regex of
`MuseMode.handleTrigger`): the payload is the maximal run of non-`]`
characters, which must be followed directly by the literal closer. -/
def scanNoBracket (s : Str) : Option (Str × Str) :=
  let p := s.takeWhile (fun c => c ≠ ']')
  let r := s.dropWhile (fun c => c ≠ ']')
  if inlineClose.isPrefixOf r then some (p, r.drop 3) else none

/-- Non-greedy scan for the multiline body `([\s\S]*?)\n:::`. -/
def scanMultiline : Str → Option (Str × Str)
  | [] => none
  | c :: cs =>
    if ['\n', ':', ':', ':'].isPrefixOf (c :: cs) then some ([], cs.drop 3)
    else (scanMultiline cs).map (fun pr => (c :: pr.1, pr.2))

/-- Attempt a full pattern match at the head of `s`: the literal opener
followed by the body scan. -/
def matchAt (opn : Str) (scan : Str → Option (Str × Str)) (s : Str) : Option (Str × Str) :=
  if opn.isPrefixOf s then scan (s.drop opn.length) else none

/-- The `exec` loop of a global regex: find the leftmost match, record
`(start, payload, end)`, and continue from the end of the match. `fuel`
bounds the recursion; `s.length` is always enough since every step consumes
at least one character. -/
def gMatchesF (opn : Str) (scan : Str → Option (Str × Str)) :
    Nat → Str → Nat → List (Nat × Str × Nat)
  | 0, _, _ => []
  | _ + 1, [], _ => []
  | fuel + 1, c :: cs, i =>
    match matchAt opn scan (c :: cs) with
    | some (p, rest) =>
      (i, p, i + ((c :: cs).length - rest.length)) ::
        gMatchesF opn scan fuel rest (i + ((c :: cs).length - rest.length))
    | none => gMatchesF opn scan fuel cs (i + 1)

/-- All matches of a global regex over `s`, with start and end offsets. -/
def gMatches (opn : Str) (scan : Str → Option (Str × Str)) (s : Str) :
    List (Nat × Str × Nat) :=
  gMatchesF opn scan s.length s 0

/-- `String.replace(pattern, Char)` with an empty replacement: the scan
continues after each match in the original string, so text formed by the
juxtaposition of the pieces around a removed match is never rescanned. -/
def replaceAllF (opn : Str) (scan : Str → Option (Str × Str)) : Nat → Str → Str
  | 0, s => s
  | _ + 1, [] => []
  | fuel + 1, c :: cs =>
    match matchAt opn scan (c :: cs) with
    | some (_, rest) => replaceAllF opn scan fuel rest
    | none => c :: replaceAllF opn scan fuel cs

/-- Remove every match of the pattern, replacing each by the empty string. -/
def replaceAllEmpty (opn : Str) (scan : Str → Option (Str × Str)) (s : Str) : Str :=
  replaceAllF opn scan s.length s

/-- `result.replace(/\n{3,}/g, '\n\n')`: each maximal run of three or more
newlines collapses to exactly two. -/
def collapseNLF : Nat → Str → Str
  | 0, s => s
  | _ + 1, [] => []
  | fuel + 1, c :: cs =>
    if ['\n', '\n', '\n'].isPrefixOf (c :: cs) then
      '\n' :: '\n' :: collapseNLF fuel (cs.dropWhile (fun d => d = '\n'))
    else c :: collapseNLF fuel cs

/-- Collapse runs of three or more newlines to two. -/
def collapseNewlines (s : Str) : Str := collapseNLF s.length s

/-- `removeAllEnchantments` from `src/utils/parser.ts`: remove multiline
blocks, then inline blocks, then collapse newline runs. -/
def removeAllEnchantments (s : Str) : Str :=
  let r1 := replaceAllEmpty mlMuseOpen scanMultiline s
  let r2 := replaceAllEmpty mlWhisperOpen scanMultiline r1
  let r3 := replaceAllEmpty inlineMuseOpen scanInline r2
  let r4 := replaceAllEmpty inlineWhisperOpen scanInline r3
  collapseNewlines r4

/-- The two block kinds (`'muse' | 'whisper'`). -/
inductive EKind
  | muse
  | whisper
deriving DecidableEq, Repr

/-- `EnchantmentBlock` from `src/types.ts`; `stop` stands for the source
field `end`. -/
structure EnchantmentBlock where
  type : EKind
  content : Str
  isMultiline : Bool
  start : Nat
  stop : Nat
deriving DecidableEq, Repr

/-- Stable insertion of a block into a list sorted by `start` ascending,
placing the new element before elements of equal `start` that came later in
discovery order (matching the stable `Array.prototype.sort`). -/
def insertByStart (x : EnchantmentBlock) : List EnchantmentBlock → List EnchantmentBlock
  | [] => [x]
  | y :: ys => if y.start < x.start then y :: insertByStart x ys else x :: y :: ys

/-- Stable sort by `start` ascending. -/
def sortByStart (l : List EnchantmentBlock) : List EnchantmentBlock :=
  l.foldr insertByStart []

/-- `parseEnchantments`: collect the matches of the four global patterns
(inline muse, inline whisper, multiline muse, multiline whisper) and sort the
union by start offset. -/
def parseEnchantments (s : Str) : List EnchantmentBlock :=
  let im := (gMatches inlineMuseOpen scanInline s).map
    (fun m => ⟨EKind.muse, m.2.1, false, m.1, m.2.2⟩)
  let iw := (gMatches inlineWhisperOpen scanInline s).map
    (fun m => ⟨EKind.whisper, m.2.1, false, m.1, m.2.2⟩)
  let mm := (gMatches mlMuseOpen scanMultiline s).map
    (fun m => ⟨EKind.muse, m.2.1, true, m.1, m.2.2⟩)
  let mw := (gMatches mlWhisperOpen scanMultiline s).map
    (fun m => ⟨EKind.whisper, m.2.1, true, m.1, m.2.2⟩)
  sortByStart (im ++ iw ++ mm ++ mw)

/-- `createMuseBlock`: block form when the payload holds a newline (or the
flag is set), inline form otherwise. -/
def createMuseBlock (content : Str) (multiline : Bool := false) : Str :=
  if multiline || content.contains '\n' then mlMuseOpen ++ content ++ "\n:::".toList
  else inlineMuseOpen ++ content ++ inlineClose

/-- `isInsideEnchantment`: a position is inside a block when it falls within
`[start, end]` (end inclusive) of some parsed block. -/
def isInsideEnchantment (s : Str) (pos : Nat) : Bool :=
  (parseEnchantments s).any (fun b => b.start ≤ pos && pos ≤ b.stop)

/-!
Embedding of `MuseMode.handleTrigger` (src/modes/muse.ts). The guard chain,
placeholder insertion, chunk-streaming rewrites and the error-path retraction
are modelled as a pure function over a document state; the backend is
represented by the list of chunks it emits and a flag saying whether it
throws after emitting them.
-/

/-- The text inserted at the cursor on trigger. -/
def placeholderText : Str := "\n\n::muse[...]::  ".toList

/-- The literal pattern `/::muse\[\.\.\.\]::/` used by the error path. -/
def placeholderLiteral : Str := "::muse[...]::".toList

/-- Leftmost full match of a pattern, split as
(text before the match, payload, text after the match). -/
def findFirstSplit (opn : Str) (scan : Str → Option (Str × Str)) :
    Str → Option (Str × Str × Str)
  | [] => none
  | c :: cs =>
    match matchAt opn scan (c :: cs) with
    | some (p, rest) => some ([], p, rest)
    | none => (findFirstSplit opn scan cs).map (fun t => (c :: t.1, t.2.1, t.2.2))

/-- One `onChunk` callback body: find the first `/::muse\[([^\]]*)\]::/`
match in the current document and replace its whole span by
`::muse[<accumulator>]::`; if no match is found the document is unchanged. -/
def rewritePlaceholder (doc acc : Str) : Str :=
  match findFirstSplit inlineMuseOpen scanNoBracket doc with
  | none => doc
  | some (pre, _, rest) => pre ++ inlineMuseOpen ++ acc ++ inlineClose ++ rest

/-- Fold the chunk stream through the rewrite, accumulating the streamed
content exactly as `streamedContent += text` does. -/
def streamChunksGo (doc acc : Str) : List Str → Str
  | [] => doc
  | c :: cs => streamChunksGo (rewritePlaceholder doc (acc ++ c)) (acc ++ c) cs

/-- Apply the whole chunk stream starting from the empty accumulator. -/
def streamChunks (doc : Str) (chunks : List Str) : Str :=
  streamChunksGo doc [] chunks

/-- Delete the first occurrence of `needle` (the error-path retraction:
`match(/::muse\[\.\.\.\]::/)` then delete that span); when there is no
occurrence the document is unchanged. -/
def removeFirstOcc (needle : Str) : Str → Str
  | [] => []
  | c :: cs =>
    if needle.isPrefixOf (c :: cs) then (c :: cs).drop needle.length
    else c :: removeFirstOcc needle cs

/-- Insert `t` into `s` at offset `i`. -/
def insertAt (s : Str) (i : Nat) (t : Str) : Str := s.take i ++ t ++ s.drop i

/-- The mutable state of `MuseMode` relevant to triggering: the document, the
trigger manager's last-processed content, the in-flight flag and whether the
provider is configured. -/
structure MuseState where
  doc : Str
  lastContent : Str
  isGenerating : Bool
  configured : Bool
deriving DecidableEq, Repr

/-- `MuseMode.handleTrigger` as a state transformer. The returned Bool is
true exactly when the backend streaming call was made. Guard order follows
the source: in-flight flag, cursor inside a block, unchanged content,
unconfigured provider; then the placeholder is inserted at the cursor, the
chunks are streamed, and on failure the literal placeholder is removed. The
in-flight flag is set and cleared within the call, so it is unchanged at
exit; on success `markProcessed` stores the final document. -/
def handleTrigger (st : MuseState) (cursorPos : Nat) (chunks : List Str)
    (fails : Bool) : MuseState × Bool :=
  if st.isGenerating then (st, false)
  else if isInsideEnchantment st.doc cursorPos then (st, false)
  else if st.doc = st.lastContent then (st, false)
  else if !st.configured then (st, false)
  else
    let doc1 := insertAt st.doc cursorPos placeholderText
    let doc2 := streamChunks doc1 chunks
    if fails then ({ st with doc := removeFirstOcc placeholderLiteral doc2 }, true)
    else ({ st with doc := doc2, lastContent := doc2 }, true)

/-!
Embedding of `TriggerManager` (the interactive detector): pause timer
arming, double-enter detection with its 300 ms threshold, and the
last-content gate. Timestamps are integers (milliseconds); the armed pause
timer is a Bool since only its pending/cancelled status matters here.
-/

/-- `DOUBLE_ENTER_THRESHOLD` (300 ms). -/
def doubleEnterThreshold : Int := 300

/-- The per-document trigger state. -/
structure TriggerState where
  pauseTimerArmed : Bool
  lastEnterTime : Int
  lastContent : Str
  enabled : Bool
deriving DecidableEq, Repr

/-- `TriggerManager.checkDoubleEnter`: when the update inserted exactly a
newline and it arrived strictly within the threshold of the previous one,
clear the pause timer, zero the stored timestamp and fire (second component
true); otherwise record the timestamp. -/
def checkDoubleEnter (st : TriggerState) (hasNewline : Bool) (now : Int) :
    TriggerState × Bool :=
  if !hasNewline then (st, false)
  else if now - st.lastEnterTime < doubleEnterThreshold then
    ({ st with lastEnterTime := 0, pauseTimerArmed := false }, true)
  else ({ st with lastEnterTime := now }, false)

/-- `TriggerManager.handleUpdate`: ignore updates while disabled or without a
document change or without a content change; otherwise try double-enter
first (returning immediately when it fires, without storing the content),
else rearm the pause timer and store the content. The Bool is the double
trigger having fired. -/
def handleUpdate (st : TriggerState) (docChanged : Bool) (newContent : Str)
    (hasNewline : Bool) (now : Int) : TriggerState × Bool :=
  if !st.enabled || !docChanged then (st, false)
  else if newContent = st.lastContent then (st, false)
  else
    let r := checkDoubleEnter st hasNewline now
    if r.2 then (r.1, true)
    else ({ r.1 with pauseTimerArmed := true, lastContent := newContent }, false)

/-!
Embedding of `WhisperMode.findParagraphToAnalyze` (src/modes/whisper.ts):
split on blank-line boundaries, keep paragraphs that are long enough and are
not enchantment markup or frontmatter, then pick the last index different
from the previously analyzed one, falling back to the last valid index when
every valid index equals it.
-/

/-- `content.split(/\n\n+/)`: a maximal run of two or more newlines
separates paragraphs. -/
def splitParasF : Nat → Str → List Str
  | 0, s => [s]
  | _ + 1, [] => [[]]
  | fuel + 1, c :: cs =>
    if ['\n', '\n'].isPrefixOf (c :: cs) then
      [] :: splitParasF fuel (cs.dropWhile (fun d => d = '\n'))
    else
      match splitParasF fuel cs with
      | [] => [[c]]
      | p :: ps => (c :: p) :: ps

/-- Split a document into paragraphs at blank-line boundaries. -/
def splitParas (s : Str) : List Str := splitParasF s.length s

/-- `String.prototype.trim` over the document alphabet. -/
def trimWS (s : Str) : Str :=
  ((s.dropWhile Char.isWhitespace).reverse.dropWhile Char.isWhitespace).reverse

/-- The validity filter of `findParagraphToAnalyze`: trimmed length above 50
and not starting with muse/whisper markup or a frontmatter fence. -/
def isValidPara (para : Str) : Bool :=
  let p := trimWS para
  decide (50 < p.length) && !(inlineMuseOpen.isPrefixOf p) &&
    !(":::muse".toList.isPrefixOf p) && !(inlineWhisperOpen.isPrefixOf p) &&
    !("---".toList.isPrefixOf p)

/-- The indices of the qualifying paragraphs (the `validParagraphs` array). -/
def validParaIndices (content : Str) : List Nat :=
  ((splitParas content).enum.filter (fun ip => isValidPara ip.2)).map Prod.fst

/-- `findParagraphToAnalyze`: `lastAnalyzed` is the field
`lastParagraphAnalyzed` (initially -1). Returns the selected paragraph index
or none when no paragraph qualifies. -/
def findParagraphToAnalyze (content : Str) (lastAnalyzed : Int) : Option Nat :=
  let valid := validParaIndices content
  if valid.isEmpty then none
  else
    let candidates := valid.filter (fun p => Int.ofNat p != lastAnalyzed)
    if candidates.isEmpty then valid.getLast? else candidates.getLast?

/-!
Embedding of the whisper gutter index (`whisperState` in
src/rendering/whisper-widget.ts). Effects are processed first (add is an
upsert, remove filters, clear empties); when the transaction changed the
document every entry is remapped: clamp the stored line to the old line
count, take that line's start offset, map the offset through the change and
read off the new line number. The source wraps this in try/catch, but
`doc.line` is only called on a clamped in-range number, `mapPos` returns an
in-range position and `lineAt` accepts any in-range position, so the catch
branch (which would drop the entry) is unreachable and the model is total.
An edit is a single-span replacement of `[a, b)` by `repl`, and `mapPosCM`
mirrors CodeMirror position mapping at default association: positions at or
before `a` stay, positions at or after `b` shift by the length change, and
positions inside the replaced span collapse to `a`.
-/

/-- One gutter entry (`WhisperData`). -/
structure WhisperData where
  line : Nat
  content : Str
deriving DecidableEq, Repr

/-- The three state effects of the gutter index. -/
inductive WhisperEffect
  | add (line : Nat) (content : Str)
  | remove (line : Nat)
  | clear
deriving DecidableEq, Repr

/-- Process one effect. -/
def applyWhisperEffect (ws : List WhisperData) : WhisperEffect → List WhisperData
  | WhisperEffect.add l c => ws.filter (fun w => w.line != l) ++ [⟨l, c⟩]
  | WhisperEffect.remove l => ws.filter (fun w => w.line != l)
  | WhisperEffect.clear => []

/-- `doc.lines`: number of lines (1-based counting). -/
def countLines (s : Str) : Nat := s.count '\n' + 1

/-- Offset just after the k-th newline of `s` (0 for k = 0). -/
def lineStartAux : Str → Nat → Nat
  | _, 0 => 0
  | [], _ + 1 => 0
  | c :: cs, k + 1 =>
    1 + (if c = '\n' then lineStartAux cs k else lineStartAux cs (k + 1))

/-- `doc.line(n).from`: start offset of the (1-based) line `n`. -/
def lineStart (s : Str) (n : Nat) : Nat := lineStartAux s (n - 1)

/-- `doc.lineAt(pos).number`: 1 plus the newlines strictly before `pos`. -/
def lineNumberAt (s : Str) (pos : Nat) : Nat := (s.take pos).count '\n' + 1

/-- A single-span document edit: replace `[a, b)` by `repl`. -/
structure EditModel where
  a : Nat
  b : Nat
  repl : Str
deriving DecidableEq, Repr

/-- `changes.mapPos(p)` for a single-span change at default association. -/
def mapPosCM (e : EditModel) (p : Nat) : Nat :=
  if p ≤ e.a then p
  else if e.b ≤ p then p - e.b + e.a + e.repl.length
  else e.a

/-- Apply the edit to the document. -/
def applyEdit (s : Str) (e : EditModel) : Str :=
  s.take e.a ++ e.repl ++ s.drop e.b

/-- Remap one entry across an edit (the `docChanged` branch of the update). -/
def remapWhisper (oldDoc : Str) (e : EditModel) (w : WhisperData) : WhisperData :=
  let ol := min w.line (countLines oldDoc)
  let anchor := lineStart oldDoc ol
  let newPos := mapPosCM e anchor
  ⟨lineNumberAt (applyEdit oldDoc e) newPos, w.content⟩

/-- The full `whisperState.update`: effects first, then (when the document
changed) the remap pass. -/
def whisperStateUpdate (ws : List WhisperData) (effects : List WhisperEffect)
    (edit : Option EditModel) (oldDoc : Str) : List WhisperData :=
  let ws1 := effects.foldl applyWhisperEffect ws
  match edit with
  | none => ws1
  | some e => ws1.map (remapWhisper oldDoc e)

/-!
Embedding of the context resolver (`detection/context.ts` and
`utils/frontmatter.ts`). Frontmatter is an input record (the host metadata
cache is external). For content inference note that the source builds its
counting regexes with `new RegExp(pattern, 'g')`, which keeps only the
pattern source and replaces the flag set by `g` alone: the written `i` and
`m` flags are dropped, so counting is case-sensitive and `^` anchors only at
the very start of the content.
-/

/-- The three moods. -/
inductive Mood
  | reflect
  | think
  | plan
deriving DecidableEq, Repr

/-- Interaction styles. -/
inductive InteractionStyle
  | muse
  | whisper
deriving DecidableEq, Repr

/-- The `defaultStyle` setting, which also admits `'off'`. -/
inductive StyleSetting
  | muse
  | whisper
  | off
deriving DecidableEq, Repr

/-- The tier that produced a detected context. -/
inductive CtxSource
  | frontmatter
  | folder
  | content
  | dflt
deriving DecidableEq, Repr

/-- `DetectedContext`. -/
structure DetectedContext where
  mood : Mood
  style : InteractionStyle
  source : CtxSource
deriving DecidableEq, Repr

/-- The enchantment-related frontmatter fields of a note. -/
structure FrontmatterModel where
  style : Option InteractionStyle
  mood : Option Mood
  type : Option Str
deriving DecidableEq, Repr

/-- The settings fields the resolver reads (`defaultMood = none` models
`'auto'`). -/
structure SettingsModel where
  defaultStyle : StyleSetting
  defaultMood : Option Mood
deriving DecidableEq, Repr

/-- Lower-case a string (ASCII, as the source data only uses ASCII keys). -/
def toLowerStr (s : Str) : Str := s.map Char.toLower

/-- `FOLDER_MOOD_PATTERNS`. -/
def folderMoodPatterns : List (Str × Mood) :=
  [("journal".toList, Mood.reflect), ("journals".toList, Mood.reflect),
   ("diary".toList, Mood.reflect), ("diaries".toList, Mood.reflect),
   ("reflection".toList, Mood.reflect), ("reflections".toList, Mood.reflect),
   ("project".toList, Mood.plan), ("projects".toList, Mood.plan),
   ("todo".toList, Mood.plan), ("todos".toList, Mood.plan),
   ("task".toList, Mood.plan), ("tasks".toList, Mood.plan),
   ("planning".toList, Mood.plan),
   ("essay".toList, Mood.think), ("essays".toList, Mood.think),
   ("writing".toList, Mood.think), ("writings".toList, Mood.think),
   ("idea".toList, Mood.think), ("ideas".toList, Mood.think),
   ("article".toList, Mood.think), ("articles".toList, Mood.think)]

/-- The type-tag dictionary of `inferMoodFromType`. -/
def typeMoodMap : List (Str × Mood) :=
  [("journal".toList, Mood.reflect), ("diary".toList, Mood.reflect),
   ("reflection".toList, Mood.reflect),
   ("essay".toList, Mood.think), ("writing".toList, Mood.think),
   ("article".toList, Mood.think), ("idea".toList, Mood.think),
   ("ideas".toList, Mood.think),
   ("project".toList, Mood.plan), ("todo".toList, Mood.plan),
   ("task".toList, Mood.plan), ("tasks".toList, Mood.plan),
   ("plan".toList, Mood.plan), ("planning".toList, Mood.plan)]

/-- Association-list lookup. -/
def lookupMood (table : List (Str × Mood)) (key : Str) : Option Mood :=
  (table.find? (fun kv => kv.1 == key)).map (fun kv => kv.2)

/-- `inferMoodFromType`. -/
def inferMoodFromType (ty : Str) : Option Mood :=
  lookupMood typeMoodMap (toLowerStr ty)

/-- `detectMoodFromFolder`: first path segment found in the folder table. -/
def detectMoodFromFolder (path : Str) : Option Mood :=
  (List.splitOn '/' (toLowerStr path)).findSome?
    (fun part => lookupMood folderMoodPatterns part)

/-- A content pattern shape: `word lit` is `\blit\b` and `atStart lit` is
`^lit` (after the `g`-only flag rewrite both are case-sensitive and the
anchor only matches at offset 0). -/
inductive CPat
  | word (lit : Str)
  | atStart (lit : Str)
deriving DecidableEq, Repr

/-- JS `\w`: ASCII letters, digits and underscore. -/
def isWordChar (c : Char) : Bool := c.isAlphanum || c = '_'

/-- Count the `g`-matches of `\blit\b`: scan left to right, match the
literal when a word boundary holds on both sides, and continue after each
match. `prev` is the character before the scan position. -/
def countWordF (lit : Str) : Nat → Option Char → Str → Nat
  | 0, _, _ => 0
  | _ + 1, _, [] => 0
  | fuel + 1, prev, c :: cs =>
    if lit.isPrefixOf (c :: cs)
        && (match prev with | none => true | some d => !isWordChar d)
        && (match (c :: cs).drop lit.length with
            | [] => true
            | d :: _ => !isWordChar d) then
      1 + countWordF lit fuel ((c :: cs).take lit.length).getLast? ((c :: cs).drop lit.length)
    else countWordF lit fuel (some c) cs

/-- Count the matches of one pattern over the content. -/
def countPat (s : Str) : CPat → Nat
  | CPat.word lit => countWordF lit s.length none s
  | CPat.atStart lit => if lit.isPrefixOf s then 1 else 0

/-- `CONTENT_PATTERNS` in source order. -/
def contentPatterns : List (CPat × Mood) :=
  [(CPat.word "I feel".toList, Mood.reflect),
   (CPat.word "I felt".toList, Mood.reflect),
   (CPat.word "Today I".toList, Mood.reflect),
   (CPat.word "I\x27m feeling".toList, Mood.reflect),
   (CPat.word "I\x27ve been feeling".toList, Mood.reflect),
   (CPat.word "I noticed".toList, Mood.reflect),
   (CPat.word "I\x27m grateful".toList, Mood.reflect),
   (CPat.word "I\x27m struggling".toList, Mood.reflect),
   (CPat.atStart "- [ ]".toList, Mood.plan),
   (CPat.atStart "- [x]".toList, Mood.plan),
   (CPat.word "TODO".toList, Mood.plan),
   (CPat.word "next steps".toList, Mood.plan),
   (CPat.word "action items".toList, Mood.plan),
   (CPat.word "deadline".toList, Mood.plan),
   (CPat.word "the argument is".toList, Mood.think),
   (CPat.word "my thesis".toList, Mood.think),
   (CPat.word "I argue".toList, Mood.think),
   (CPat.word "I believe".toList, Mood.think),
   (CPat.word "the evidence".toList, Mood.think),
   (CPat.word "the reason".toList, Mood.think),
   (CPat.word "in conclusion".toList, Mood.think),
   (CPat.word "furthermore".toList, Mood.think),
   (CPat.word "however".toList, Mood.think)]

/-- Total match count accumulated for one mood. -/
def moodCount (s : Str) (m : Mood) : Nat :=
  (contentPatterns.filter (fun pm => pm.2 = m)).foldl
    (fun acc pm => acc + countPat s pm.1) 0

/-- `detectMoodFromContent`: fold the per-mood counts in `Object.entries`
order (reflect, think, plan) keeping the first strict maximum, and return it
only when the maximal count reaches the floor of 2. -/
def detectMoodFromContent (s : Str) : Option Mood :=
  let counts := [(Mood.reflect, moodCount s Mood.reflect),
                 (Mood.think, moodCount s Mood.think),
                 (Mood.plan, moodCount s Mood.plan)]
  let best := counts.foldl
    (fun acc mc => if mc.2 > acc.2 then (some mc.1, mc.2) else acc)
    (((none, 0) : Option Mood × Nat))
  if 2 ≤ best.2 then best.1 else none

/-- The style fallback used on every tier: explicit frontmatter style, else
the default style with `'off'` mapped to muse. -/
def resolveStyle (fm : FrontmatterModel) (st : SettingsModel) : InteractionStyle :=
  fm.style.getD
    (match st.defaultStyle with
     | StyleSetting.off => InteractionStyle.muse
     | StyleSetting.muse => InteractionStyle.muse
     | StyleSetting.whisper => InteractionStyle.whisper)

/-- `detectContext`: the five-tier cascade. -/
def detectContext (fm : FrontmatterModel) (path : Str) (content : Str)
    (st : SettingsModel) : DetectedContext :=
  match fm.mood with
  | some m => ⟨m, resolveStyle fm st, CtxSource.frontmatter⟩
  | none =>
    match fm.type.bind inferMoodFromType with
    | some m => ⟨m, resolveStyle fm st, CtxSource.frontmatter⟩
    | none =>
      match detectMoodFromFolder path with
      | some m => ⟨m, resolveStyle fm st, CtxSource.folder⟩
      | none =>
        match detectMoodFromContent content with
        | some m => ⟨m, resolveStyle fm st, CtxSource.content⟩
        | none =>
          ⟨st.defaultMood.getD Mood.reflect, resolveStyle fm st, CtxSource.dflt⟩

/-- The shape of the document while the placeholder is live: the pre-cursor
text, the two separating newlines, the placeholder span with payload `P`,
its two trailing spaces and the post-cursor text. -/
def museDocShape (pre P post : Str) : Str :=
  pre ++ '\n' :: '\n' :: (inlineMuseOpen ++ (P ++ (inlineClose ++ ' ' :: ' ' :: post)))

/-- Whether the text contains three consecutive newlines anywhere. -/
def hasTriple : Str → Bool
  | [] => false
  | c :: cs => ['\n', '\n', '\n'].isPrefixOf (c :: cs) || hasTriple cs

/-!
Theorems. Claims C1 through C10 of the specification are settled below; each
claim's main theorem carries the claim id in its doc comment.
-/

/-- C1: the backend emits two chunks into the placeholder and then throws.
The spec requires the final document to equal the pre-trigger text "Hello"
exactly; the code's retraction pattern `/::muse\[\.\.\.\]::/` only matches
the pristine placeholder, so the partially filled placeholder survives and
the document ends as "Hello\n\n::muse[AB]::  ". -/
theorem c1_retraction_residue :
    (handleTrigger ⟨"Hello".toList, [], false, true⟩ 5
        ["A".toList, "B".toList] true).1.doc
      = "Hello\n\n::muse[AB]::  ".toList ∧
    (handleTrigger ⟨"Hello".toList, [], false, true⟩ 5
        ["A".toList, "B".toList] true).1.doc
      ≠ "Hello".toList := by
  constructor
  · decide
  · decide

/-- C2 counterexample: the pre-trigger document already contains an inline
muse block before the cursor. The claim demands that after the first chunk
the placeholder payload equals that chunk with the old block untouched
(document `::muse[old]:: Hi\n\n::muse[X]::  `); instead the rewrite matches
the first inline muse block of the document and overwrites the pre-existing
block, leaving the placeholder payload at `...`. -/
theorem c2_counterexample :
    (handleTrigger ⟨"::muse[old]:: Hi".toList, [], false, true⟩ 16
        ["X".toList] false).1.doc
      = "::muse[X]:: Hi\n\n::muse[...]::  ".toList ∧
    (handleTrigger ⟨"::muse[old]:: Hi".toList, [], false, true⟩ 16
        ["X".toList] false).1.doc
      ≠ "::muse[old]:: Hi\n\n::muse[X]::  ".toList := by
  constructor
  · decide
  · decide

/-- C3 counterexample: a document whose reflect count and think count are
both 2 (a tie at the maximum, meeting the floor). The claim demands that a
tie yields no inference; the code returns the first mood in entry order,
reflect. -/
theorem c3_counterexample :
    moodCount "I feel x and I feel y because the reason is a and the reason is b.".toList
        Mood.reflect = 2 ∧
    moodCount "I feel x and I feel y because the reason is a and the reason is b.".toList
        Mood.think = 2 ∧
    moodCount "I feel x and I feel y because the reason is a and the reason is b.".toList
        Mood.plan = 0 ∧
    detectMoodFromContent
        "I feel x and I feel y because the reason is a and the reason is b.".toList
      = some Mood.reflect := by
  refine ⟨by decide, by decide, by decide, by decide⟩

/-- C4 counterexample: a document with a single qualifying paragraph whose
index 0 equals the previously analyzed index. The claim demands a null
selection; the code re-selects that same paragraph. -/
theorem c4_counterexample :
    findParagraphToAnalyze (List.replicate 60 'a') 0 = some 0 ∧
    findParagraphToAnalyze (List.replicate 60 'a') 0 ≠ none := by
  constructor
  · decide
  · decide

/-- C5 counterexample: removing the inline block `::muse[x]::` from
`::mu::muse[x]::se[y]::` joins the surrounding pieces into the fresh block
`::muse[y]::`, which the same pass never rescans; a second strip removes it,
so strip is not idempotent on this text. -/
theorem c5_counterexample :
    removeAllEnchantments "::mu::muse[x]::se[y]::".toList = "::muse[y]::".toList ∧
    removeAllEnchantments (removeAllEnchantments "::mu::muse[x]::se[y]::".toList)
      ≠ removeAllEnchantments "::mu::muse[x]::se[y]::".toList := by
  constructor
  · decide
  · decide

/-- C6 counterexample: the payload `::whisper[x` contains neither `]::` nor
a newline, yet parsing its inline muse serialization yields two blocks (the
muse block and a whisper block nested inside its payload), not exactly
one. -/
theorem c6_counterexample :
    ¬ (inlineClose <:+: "::whisper[x".toList) ∧
    '\n' ∉ "::whisper[x".toList ∧
    (parseEnchantments (createMuseBlock "::whisper[x".toList)).length = 2 := by
  refine ⟨by decide, by decide, by decide⟩

/-- C7 counterexample: entries at lines 3 and 7 of an eight-line document;
the edit deletes line 7 outright. The claim demands that the line-7 entry be
dropped, leaving only the line-3 entry; the code remaps it to the line now
at the deletion point, leaving two entries at lines 3 and 7. -/
theorem c7_counterexample :
    whisperStateUpdate [⟨3, "a".toList⟩, ⟨7, "b".toList⟩] []
        (some ⟨lineStart "one\ntwo\nthree\nfour\nfive\nsix\nseven\neight".toList 7,
               lineStart "one\ntwo\nthree\nfour\nfive\nsix\nseven\neight".toList 8, []⟩)
        "one\ntwo\nthree\nfour\nfive\nsix\nseven\neight".toList
      = [⟨3, "a".toList⟩, ⟨7, "b".toList⟩] ∧
    whisperStateUpdate [⟨3, "a".toList⟩, ⟨7, "b".toList⟩] []
        (some ⟨lineStart "one\ntwo\nthree\nfour\nfive\nsix\nseven\neight".toList 7,
               lineStart "one\ntwo\nthree\nfour\nfive\nsix\nseven\neight".toList 8, []⟩)
        "one\ntwo\nthree\nfour\nfive\nsix\nseven\neight".toList
      ≠ [⟨3, "a".toList⟩] := by
  constructor
  · decide
  · decide

/-- C7 amended: on the eight-line document with entries at lines 3 and 7,
inserting two fresh lines before line 5 remaps the entries to lines 3 and 9
as the claim states; deleting line 7 outright does not drop its entry but
remaps it to the line at the deletion point, leaving entries at lines 3 and
7 (the remap branch is total: the clamped line lookup, the position map and
the line-at lookup never throw, so no entry is ever dropped). -/
theorem c7_remap_amended :
    whisperStateUpdate [⟨3, "a".toList⟩, ⟨7, "b".toList⟩] []
        (some ⟨lineStart "one\ntwo\nthree\nfour\nfive\nsix\nseven\neight".toList 5,
               lineStart "one\ntwo\nthree\nfour\nfive\nsix\nseven\neight".toList 5,
               "new1\nnew2\n".toList⟩)
        "one\ntwo\nthree\nfour\nfive\nsix\nseven\neight".toList
      = [⟨3, "a".toList⟩, ⟨9, "b".toList⟩] ∧
    whisperStateUpdate [⟨3, "a".toList⟩, ⟨7, "b".toList⟩] []
        (some ⟨lineStart "one\ntwo\nthree\nfour\nfive\nsix\nseven\neight".toList 7,
               lineStart "one\ntwo\nthree\nfour\nfive\nsix\nseven\neight".toList 8, []⟩)
        "one\ntwo\nthree\nfour\nfive\nsix\nseven\neight".toList
      = [⟨3, "a".toList⟩, ⟨7, "b".toList⟩] := by
  constructor
  · decide
  · decide

/-- C8 counterexample: entries at lines 3 and 4 of a five-line document; the
edit deletes line 3 outright. Both anchors map to the same point and the
remap leaves two entries on line 3, violating the at-most-one-per-line
invariant. -/
theorem c8_counterexample :
    (whisperStateUpdate [⟨3, "a".toList⟩, ⟨4, "b".toList⟩] []
        (some ⟨lineStart "one\ntwo\nthree\nfour\nfive".toList 3,
               lineStart "one\ntwo\nthree\nfour\nfive".toList 4, []⟩)
        "one\ntwo\nthree\nfour\nfive".toList).map (fun w => w.line)
      = [3, 3] ∧
    ¬ ((whisperStateUpdate [⟨3, "a".toList⟩, ⟨4, "b".toList⟩] []
        (some ⟨lineStart "one\ntwo\nthree\nfour\nfive".toList 3,
               lineStart "one\ntwo\nthree\nfour\nfive".toList 4, []⟩)
        "one\ntwo\nthree\nfour\nfive".toList).map (fun w => w.line)).Nodup := by
  constructor
  · decide
  · decide

/-- C10: `summon` runs `handleTrigger` directly, and `handleTrigger` returns
before inserting the placeholder and before any backend call whenever a
generation is already in flight, the cursor offset lies inside a parsed
block, or the document equals the trigger manager's last-processed content:
here the state is returned unchanged and the backend-called flag is false. -/
theorem c10_summon_guards (st : MuseState) (cursorPos : Nat) (chunks : List Str)
    (fails : Bool)
    (h : st.isGenerating = true ∨ isInsideEnchantment st.doc cursorPos = true ∨
      st.doc = st.lastContent) :
    handleTrigger st cursorPos chunks fails = (st, false) := by
  unfold handleTrigger
  split_ifs with h1 h2 h3 h4 h5 <;>
    first
      | rfl
      | (exfalso; rcases h with h | h | h <;> simp_all)

/-- Witness for C10 at a concrete input: the document equals the
last-processed content, so the call is a no-op. -/
theorem c10_summon_guards_witness :
    handleTrigger ⟨"abc".toList, "abc".toList, false, true⟩ 0 [] false
      = (⟨"abc".toList, "abc".toList, false, true⟩, false) :=
  c10_summon_guards ⟨"abc".toList, "abc".toList, false, true⟩ 0 [] false
    (Or.inr (Or.inr rfl))

/-- C9: with the detector enabled, a newline-insertion edit at `t1` (no
double fire, pause timer armed), followed by a newline-insertion edit at
`t2` strictly within the 300 ms threshold fires the double trigger exactly
once on the pair, cancels the armed pause timer and zeroes the stored
timestamp, so a further newline at `t3` (at least the threshold after the
reset timestamp) cannot fire on the same pair; with a second edit at `t2x`
at or beyond the threshold instead, the double trigger does not fire on
either edit and the pause timer is (re)armed. -/
theorem c9_double_enter (armed0 : Bool) (t0 t1 t2 t2x t3 : Int)
    (content0 c1 c2 c3 : Str)
    (h1 : ¬ (t1 - t0 < doubleEnterThreshold))
    (h2 : t2 - t1 < doubleEnterThreshold)
    (h2x : ¬ (t2x - t1 < doubleEnterThreshold))
    (h3 : ¬ (t3 < doubleEnterThreshold))
    (hc1 : c1 ≠ content0) (hc2 : c2 ≠ c1) (hc3 : c3 ≠ c1) :
    (handleUpdate ⟨armed0, t0, content0, true⟩ true c1 true t1).2 = false ∧
    (handleUpdate (handleUpdate ⟨armed0, t0, content0, true⟩ true c1 true t1).1
        true c2 true t2).2 = true ∧
    (handleUpdate (handleUpdate ⟨armed0, t0, content0, true⟩ true c1 true t1).1
        true c2 true t2).1.pauseTimerArmed = false ∧
    (handleUpdate (handleUpdate ⟨armed0, t0, content0, true⟩ true c1 true t1).1
        true c2 true t2).1.lastEnterTime = 0 ∧
    (handleUpdate (handleUpdate (handleUpdate ⟨armed0, t0, content0, true⟩
        true c1 true t1).1 true c2 true t2).1 true c3 true t3).2 = false ∧
    (handleUpdate (handleUpdate ⟨armed0, t0, content0, true⟩ true c1 true t1).1
        true c2 true t2x).2 = false ∧
    (handleUpdate (handleUpdate ⟨armed0, t0, content0, true⟩ true c1 true t1).1
        true c2 true t2x).1.pauseTimerArmed = true := by
  simp [handleUpdate, checkDoubleEnter, h1, h2, h2x, h3, hc1, hc2, hc3]

/-- Witness for C9 at concrete timestamps 1000/1200 (fires once) and
1000/1600 (no double fire), with a third newline at 2000. -/
theorem c9_double_enter_witness :
    (handleUpdate ⟨false, 0, [], true⟩ true "a".toList true 1000).2 = false ∧
    (handleUpdate (handleUpdate ⟨false, 0, [], true⟩ true "a".toList true 1000).1
        true "ab".toList true 1200).2 = true ∧
    (handleUpdate (handleUpdate ⟨false, 0, [], true⟩ true "a".toList true 1000).1
        true "ab".toList true 1200).1.pauseTimerArmed = false ∧
    (handleUpdate (handleUpdate ⟨false, 0, [], true⟩ true "a".toList true 1000).1
        true "ab".toList true 1200).1.lastEnterTime = 0 ∧
    (handleUpdate (handleUpdate (handleUpdate ⟨false, 0, [], true⟩
        true "a".toList true 1000).1 true "ab".toList true 1200).1
        true "abc".toList true 2000).2 = false ∧
    (handleUpdate (handleUpdate ⟨false, 0, [], true⟩ true "a".toList true 1000).1
        true "ab".toList true 1600).2 = false ∧
    (handleUpdate (handleUpdate ⟨false, 0, [], true⟩ true "a".toList true 1000).1
        true "ab".toList true 1600).1.pauseTimerArmed = true :=
  c9_double_enter false 0 1000 1200 1600 2000 [] "a".toList "ab".toList "abc".toList
    (by decide) (by decide) (by decide) (by decide) (by decide) (by decide) (by decide)

/-- C8 amended: effect processing preserves the at-most-one-entry-per-line
invariant — `add` is an upsert (it filters out the occupied line before
appending), `remove` filters and `clear` empties, so any sequence of effects
applied to a duplicate-free index leaves it duplicate-free. (The remap pass
under document edits does not preserve the invariant; see the
counterexample.) -/
theorem c8_invariant_amended (ws : List WhisperData) (effects : List WhisperEffect)
    (oldDoc : Str) (h : (ws.map (fun w => w.line)).Nodup) :
    ((whisperStateUpdate ws effects none oldDoc).map (fun w => w.line)).Nodup := by
  have step : ∀ (l : List WhisperData) (e : WhisperEffect),
      (l.map (fun w => w.line)).Nodup →
      ((applyWhisperEffect l e).map (fun w => w.line)).Nodup := by
    intro l e hl
    cases e with
    | add li c =>
      simp only [applyWhisperEffect, List.map_append, List.map_cons, List.map_nil]
      rw [List.nodup_append]
      refine ⟨((List.filter_sublist l).map _).nodup hl, List.nodup_singleton _, ?_⟩
      intro x hx hy
      simp only [List.mem_singleton] at hy
      simp only [List.mem_map] at hx
      obtain ⟨w, hw, rfl⟩ := hx
      have := (List.mem_filter.mp hw).2
      simp only [bne_iff_ne, ne_eq] at this
      exact this hy
    | remove li =>
      exact ((List.filter_sublist l).map _).nodup hl
    | clear =>
      simp [applyWhisperEffect]
  have main : ∀ (es : List WhisperEffect) (l : List WhisperData),
      (l.map (fun w => w.line)).Nodup →
      ((es.foldl applyWhisperEffect l).map (fun w => w.line)).Nodup := by
    intro es
    induction es with
    | nil => intro l hl; simpa using hl
    | cons e es ih =>
      intro l hl
      exact ih _ (step l e hl)
  exact main effects ws h

/-- Witness for C8 amended: two upserts on a singleton index keep the line
list duplicate-free. -/
theorem c8_invariant_amended_witness :
    ((whisperStateUpdate [⟨1, "x".toList⟩]
        [WhisperEffect.add 1 "y".toList, WhisperEffect.add 2 "z".toList]
        none []).map (fun w => w.line)).Nodup :=
  c8_invariant_amended [⟨1, "x".toList⟩]
    [WhisperEffect.add 1 "y".toList, WhisperEffect.add 2 "z".toList] [] (by decide)

/-- C4 amended: paragraph selection returns no target exactly when no
paragraph qualifies at all; whenever it returns a target, that target is a
qualifying paragraph index; and when every qualifying index equals the
previously analyzed one, it re-selects the last qualifying index (the same
paragraph) instead of yielding no target — when other qualifying indices
exist it picks the last of those, which may be an older paragraph. -/
theorem c4_select_amended (content : Str) (lastAnalyzed : Int) :
    (findParagraphToAnalyze content lastAnalyzed = none ↔
      validParaIndices content = []) ∧
    (∀ k, findParagraphToAnalyze content lastAnalyzed = some k →
      k ∈ validParaIndices content) ∧
    (validParaIndices content ≠ [] →
      (validParaIndices content).filter (fun p => Int.ofNat p != lastAnalyzed) = [] →
      findParagraphToAnalyze content lastAnalyzed =
        (validParaIndices content).getLast?) := by
  cases hv : validParaIndices content with
  | nil =>
    have hfind : findParagraphToAnalyze content lastAnalyzed = none := by
      unfold findParagraphToAnalyze
      rw [hv]
      rfl
    refine ⟨by rw [hfind]; simp, ?_, ?_⟩
    · intro k hk
      rw [hfind] at hk
      cases hk
    · intro h
      exact absurd rfl h
  | cons a as =>
    by_cases hc : ((a :: as).filter (fun p => Int.ofNat p != lastAnalyzed)).isEmpty = true
    · have hfind : findParagraphToAnalyze content lastAnalyzed = (a :: as).getLast? := by
        simp only [findParagraphToAnalyze, hv, List.isEmpty_cons, Bool.false_eq_true,
          if_false]
        rw [if_pos hc]
      obtain ⟨x, hx⟩ : ∃ x, (a :: as).getLast? = some x := by
        cases h : (a :: as).getLast? with
        | none => rw [List.getLast?_eq_none_iff] at h; cases h
        | some x => exact ⟨x, rfl⟩
      refine ⟨?_, ?_, ?_⟩
      · rw [hfind, hx]
        simp
      · intro k hk
        rw [hfind, hx] at hk
        cases hk
        exact List.mem_of_getLast?_eq_some hx
      · intro _ _
        rw [hfind]
    · have hfind : findParagraphToAnalyze content lastAnalyzed =
          ((a :: as).filter (fun p => Int.ofNat p != lastAnalyzed)).getLast? := by
        simp only [findParagraphToAnalyze, hv, List.isEmpty_cons, Bool.false_eq_true,
          if_false]
        rw [if_neg hc]
      obtain ⟨x, hx⟩ : ∃ x,
          ((a :: as).filter (fun p => Int.ofNat p != lastAnalyzed)).getLast? = some x := by
        cases h : ((a :: as).filter (fun p => Int.ofNat p != lastAnalyzed)).getLast? with
        | none =>
          rw [List.getLast?_eq_none_iff, ← List.isEmpty_iff] at h
          exact absurd h hc
        | some x => exact ⟨x, rfl⟩
      refine ⟨?_, ?_, ?_⟩
      · rw [hfind, hx]
        simp
      · intro k hk
        rw [hfind, hx] at hk
        cases hk
        exact List.mem_of_mem_filter (List.mem_of_getLast?_eq_some hx)
      · intro _ habs
        rw [habs] at hc
        simp at hc

set_option maxRecDepth 4000 in
/-- Witness for C4 amended: two qualifying paragraphs with the most recent
one previously analyzed; selection falls back to the older paragraph 0,
which is indeed a qualifying index. -/
theorem c4_select_amended_witness :
    0 ∈ validParaIndices
      (List.replicate 60 'a' ++ '\n' :: '\n' :: List.replicate 60 'b') :=
  (c4_select_amended
    (List.replicate 60 'a' ++ '\n' :: '\n' :: List.replicate 60 'b') 1).2.1 0
    (by decide)

/-- C3 amended: content inference returns none exactly when every mood's
match count is below the floor of 2; otherwise it returns the mood with the
highest count, ties at the maximum broken in favour of the earlier mood in
the fixed fold order reflect, think, plan (so a tie does not fall through).
When inference returns none and no higher tier matched, resolution falls to
the default tier. -/
theorem c3_detect_amended (s : Str) :
    (detectMoodFromContent s =
      (if moodCount s Mood.reflect < 2 ∧ moodCount s Mood.think < 2 ∧
          moodCount s Mood.plan < 2 then none
       else if moodCount s Mood.plan > moodCount s Mood.reflect ∧
          moodCount s Mood.plan > moodCount s Mood.think then some Mood.plan
       else if moodCount s Mood.think > moodCount s Mood.reflect then some Mood.think
       else some Mood.reflect)) ∧
    (∀ (fm : FrontmatterModel) (path : Str) (st : SettingsModel),
      fm.mood = none →
      (∀ ty, fm.type = some ty → inferMoodFromType ty = none) →
      detectMoodFromFolder path = none →
      detectMoodFromContent s = none →
      (detectContext fm path s st).source = CtxSource.dflt) := by
  constructor
  · unfold detectMoodFromContent
    simp only [List.foldl_cons, List.foldl_nil]
    split_ifs <;> simp_all <;> omega
  · intro fm path st h1 h2 h3 h4
    unfold detectContext
    rw [h1]
    cases hty : fm.type with
    | none => simp [Option.bind, h3, h4]
    | some ty => simp [Option.bind, h2 ty hty, h3, h4]

/-- Witness for C3 amended: a note with no frontmatter signals, a neutral
path and content with no pattern matches resolves with source `default`. -/
theorem c3_detect_amended_witness :
    (detectContext ⟨none, none, none⟩ "notes/a.md".toList "hi there".toList
      ⟨StyleSetting.muse, none⟩).source = CtxSource.dflt :=
  (c3_detect_amended "hi there".toList).2 ⟨none, none, none⟩ "notes/a.md".toList
    ⟨StyleSetting.muse, none⟩ rfl (fun ty h => by cases h) (by decide) (by decide)

/-- A pattern match fails wherever its opener is not a prefix. -/
theorem matchAt_eq_none (opn : Str) (scan : Str → Option (Str × Str)) (s : Str)
    (h : ¬ opn <+: s) : matchAt opn scan s = none := by
  unfold matchAt
  rw [if_neg]
  simp only [List.isPrefixOf_iff_prefix]
  exact h

/-- A prefix of a suffix is an infix. -/
theorem prefix_drop_isInfix {needle s : Str} {i : Nat} (h : needle <+: s.drop i) :
    needle <:+: s :=
  h.isInfix.trans (List.drop_suffix i s).isInfix

/-- The global scan finds nothing when the pattern matches at no position. -/
theorem gMatchesF_eq_nil (opn : Str) (scan : Str → Option (Str × Str)) :
    ∀ (fuel : Nat) (s : Str) (j : Nat),
      (∀ i, matchAt opn scan (s.drop i) = none) → gMatchesF opn scan fuel s j = [] := by
  intro fuel
  induction fuel with
  | zero => intro s j _; rfl
  | succ f ih =>
    intro s j h
    cases s with
    | nil => rfl
    | cons c cs =>
      have h0 : matchAt opn scan (c :: cs) = none := by simpa using h 0
      simp only [gMatchesF, h0]
      exact ih cs (j + 1) (fun i => by simpa using h (i + 1))

/-- The global scan finds something as soon as the pattern matches somewhere
(given enough fuel and a nonempty opener). -/
theorem gMatchesF_ne_nil (opn : Str) (scan : Str → Option (Str × Str))
    (hopn : opn ≠ []) :
    ∀ (fuel : Nat) (s : Str) (j i : Nat), s.length ≤ fuel →
      matchAt opn scan (s.drop i) ≠ none → gMatchesF opn scan fuel s j ≠ [] := by
  intro fuel
  induction fuel with
  | zero =>
    intro s j i hlen hm
    have hs : s = [] := List.length_eq_zero.mp (Nat.le_zero.mp hlen)
    subst hs
    rw [List.drop_nil] at hm
    exact absurd (matchAt_eq_none opn scan [] (fun hp => hopn (List.prefix_nil.mp hp))) hm
  | succ f ih =>
    intro s j i hlen hm
    cases s with
    | nil =>
      rw [List.drop_nil] at hm
      exact absurd (matchAt_eq_none opn scan [] (fun hp => hopn (List.prefix_nil.mp hp))) hm
    | cons c cs =>
      cases hma : matchAt opn scan (c :: cs) with
      | some pr =>
        simp only [gMatchesF, hma]
        exact List.cons_ne_nil _ _
      | none =>
        cases i with
        | zero =>
          rw [List.drop_zero] at hm
          exact absurd hma hm
        | succ i =>
          simp only [gMatchesF, hma]
          exact ih cs (j + 1) i (by simpa using Nat.le_of_succ_le_succ hlen)
            (by simpa using hm)

/-- Removal is the identity when the pattern matches at no position. -/
theorem replaceAllF_eq_self (opn : Str) (scan : Str → Option (Str × Str)) :
    ∀ (fuel : Nat) (s : Str),
      (∀ i, matchAt opn scan (s.drop i) = none) → replaceAllF opn scan fuel s = s := by
  intro fuel
  induction fuel with
  | zero => intro s _; rfl
  | succ f ih =>
    intro s h
    cases s with
    | nil => rfl
    | cons c cs =>
      have h0 : matchAt opn scan (c :: cs) = none := by simpa using h 0
      simp only [replaceAllF, h0]
      rw [ih cs (fun i => by simpa using h (i + 1))]

/-- Removal is the identity when the pattern matches at no position. -/
theorem replaceAllEmpty_eq_self (opn : Str) (scan : Str → Option (Str × Str))
    (s : Str) (h : ∀ i, matchAt opn scan (s.drop i) = none) :
    replaceAllEmpty opn scan s = s :=
  replaceAllF_eq_self opn scan s.length s h

/-- Stable insertion adds exactly one element. -/
theorem insertByStart_length (x : EnchantmentBlock) :
    ∀ l : List EnchantmentBlock, (insertByStart x l).length = l.length + 1 := by
  intro l
  induction l with
  | nil => rfl
  | cons y ys ih =>
    unfold insertByStart
    by_cases hy : y.start < x.start
    · rw [if_pos hy]
      simp [ih]
    · rw [if_neg hy]
      simp

/-- Stable sorting preserves length. -/
theorem sortByStart_length :
    ∀ l : List EnchantmentBlock, (sortByStart l).length = l.length := by
  intro l
  induction l with
  | nil => rfl
  | cons y ys ih =>
    show (insertByStart y (sortByStart ys)).length = ys.length + 1
    rw [insertByStart_length, ih]

/-- An empty parse means none of the four patterns matches anywhere. -/
theorem parse_nil_noMatch (u : Str) (h : parseEnchantments u = []) :
    (∀ i, matchAt inlineMuseOpen scanInline (u.drop i) = none) ∧
    (∀ i, matchAt inlineWhisperOpen scanInline (u.drop i) = none) ∧
    (∀ i, matchAt mlMuseOpen scanMultiline (u.drop i) = none) ∧
    (∀ i, matchAt mlWhisperOpen scanMultiline (u.drop i) = none) := by
  have hlen : (parseEnchantments u).length = 0 := by rw [h]; rfl
  unfold parseEnchantments at hlen
  rw [sortByStart_length] at hlen
  simp only [List.length_append, List.length_map] at hlen
  have him : gMatches inlineMuseOpen scanInline u = [] :=
    List.length_eq_zero.mp (by omega)
  have hiw : gMatches inlineWhisperOpen scanInline u = [] :=
    List.length_eq_zero.mp (by omega)
  have hmm : gMatches mlMuseOpen scanMultiline u = [] :=
    List.length_eq_zero.mp (by omega)
  have hmw : gMatches mlWhisperOpen scanMultiline u = [] :=
    List.length_eq_zero.mp (by omega)
  refine ⟨fun i => ?_, fun i => ?_, fun i => ?_, fun i => ?_⟩ <;> by_contra hne
  · exact gMatchesF_ne_nil inlineMuseOpen scanInline (by decide) u.length u 0 i
      le_rfl hne him
  · exact gMatchesF_ne_nil inlineWhisperOpen scanInline (by decide) u.length u 0 i
      le_rfl hne hiw
  · exact gMatchesF_ne_nil mlMuseOpen scanMultiline (by decide) u.length u 0 i
      le_rfl hne hmm
  · exact gMatchesF_ne_nil mlWhisperOpen scanMultiline (by decide) u.length u 0 i
      le_rfl hne hmw

/-- Collapsing the empty text gives the empty text. -/
theorem collapseNLF_nil (fuel : Nat) : collapseNLF fuel [] = [] := by
  cases fuel <;> rfl

/-- Collapsing keeps a non-newline head in place. -/
theorem collapseNLF_head (fuel : Nat) (d : Char) (ds : Str) (hd : d ≠ '\n') :
    ∃ t, collapseNLF fuel (d :: ds) = d :: t := by
  cases fuel with
  | zero => exact ⟨ds, rfl⟩
  | succ f =>
    have hp : ['\n', '\n', '\n'].isPrefixOf (d :: ds) = false := by
      cases hb : ['\n', '\n', '\n'].isPrefixOf (d :: ds)
      · rfl
      · exfalso
        have := List.isPrefixOf_iff_prefix.mp hb
        obtain ⟨t, ht⟩ := this
        have : d = '\n' := by
          have := congrArg (fun l => l.head?) ht
          simpa using this.symm
        exact hd this
    simp only [collapseNLF, hp, Bool.false_eq_true, if_false]
    exact ⟨collapseNLF f ds, rfl⟩

/-- Collapsing cannot create a leading double newline. -/
theorem collapseNLF_no_nn (fuel : Nat) :
    ∀ s : Str, ¬ (['\n', '\n'] <+: s) → ¬ (['\n', '\n'] <+: collapseNLF fuel s) := by
  intro s hs
  cases fuel with
  | zero => exact hs
  | succ f =>
    cases s with
    | nil =>
      rw [collapseNLF_nil]
      exact hs
    | cons c cs =>
      have hp : ['\n', '\n', '\n'].isPrefixOf (c :: cs) = false := by
        cases hb : ['\n', '\n', '\n'].isPrefixOf (c :: cs)
        · rfl
        · exfalso
          apply hs
          obtain ⟨t, ht⟩ := List.isPrefixOf_iff_prefix.mp hb
          exact ⟨'\n' :: t, by rw [← ht]; rfl⟩
      simp only [collapseNLF, hp, Bool.false_eq_true, if_false]
      by_cases hc : c = '\n'
      · subst hc
        have hcs : ∀ t, cs ≠ '\n' :: t := by
          intro t ht
          exact hs ⟨t, by rw [ht]; rfl⟩
        cases cs with
        | nil =>
          rw [collapseNLF_nil]
          intro ⟨t, ht⟩
          cases ht
        | cons d ds =>
          have hd : d ≠ '\n' := fun hdn => hcs ds (by rw [hdn])
          obtain ⟨t, ht⟩ := collapseNLF_head f d ds hd
          rw [ht]
          intro ⟨t2, ht2⟩
          have : d = '\n' := by
            have := congrArg (fun l => l.tail.head?) ht2
            simpa using this.symm
          exact hd this
      · intro ⟨t, ht⟩
        have : c = '\n' := by
          have := congrArg (fun l => l.head?) ht
          simpa using this.symm
        exact hc this

/-- The first element surviving `dropWhile` fails the predicate. -/
theorem dropWhile_head_false {α : Type} (p : α → Bool) :
    ∀ (l : List α) (d : α) (ds : List α), l.dropWhile p = d :: ds → p d = false := by
  intro l
  induction l with
  | nil => intro d ds h; cases h
  | cons a l ih =>
    intro d ds h
    by_cases hpa : p a = true
    · rw [List.dropWhile_cons_of_pos hpa] at h
      exact ih d ds h
    · rw [List.dropWhile_cons_of_neg hpa] at h
      cases h
      exact Bool.eq_false_iff.mpr hpa

/-- Collapsed text never contains three consecutive newlines. -/
theorem hasTriple_collapseNLF :
    ∀ (fuel : Nat) (s : Str), s.length ≤ fuel →
      hasTriple (collapseNLF fuel s) = false := by
  intro fuel
  induction fuel with
  | zero =>
    intro s hlen
    have hs : s = [] := List.length_eq_zero.mp (Nat.le_zero.mp hlen)
    subst hs
    rfl
  | succ f ih =>
    intro s hlen
    cases s with
    | nil => rfl
    | cons c cs =>
      by_cases hp : ['\n', '\n', '\n'].isPrefixOf (c :: cs) = true
      · simp only [collapseNLF, hp, if_true]
        have hrest : (cs.dropWhile (fun d => d = '\n')).length ≤ f := by
          have h1 : (cs.dropWhile (fun d => d = '\n')).length ≤ cs.length :=
            (List.dropWhile_suffix _).length_le
          have h2 : cs.length + 1 ≤ f + 1 := by simpa using hlen
          omega
        have hX := ih (cs.dropWhile (fun d => d = '\n')) hrest
        have hXhead : ¬ (['\n'] <+: collapseNLF f (cs.dropWhile (fun d => d = '\n'))) := by
          cases hdw : cs.dropWhile (fun d => d = '\n') with
          | nil =>
            rw [collapseNLF_nil]
            intro ⟨t, ht⟩
            cases ht
          | cons d ds =>
            have hd : d ≠ '\n' := by
              have := dropWhile_head_false (fun d => d = '\n') cs d ds hdw
              simpa using this
            obtain ⟨t, ht⟩ := collapseNLF_head f d ds hd
            rw [ht]
            intro ⟨t2, ht2⟩
            exact hd (by
              have := congrArg (fun l => l.head?) ht2
              simpa using this.symm)
        set X := collapseNLF f (cs.dropWhile (fun d => d = '\n')) with hXdef
        show hasTriple ('\n' :: '\n' :: X) = false
        have e1 : ['\n', '\n', '\n'].isPrefixOf ('\n' :: '\n' :: X) = false := by
          cases hb : ['\n', '\n', '\n'].isPrefixOf ('\n' :: '\n' :: X)
          · rfl
          · exfalso
            obtain ⟨t, ht⟩ := List.isPrefixOf_iff_prefix.mp hb
            apply hXhead
            refine ⟨t, ?_⟩
            have := congrArg (fun l => l.tail.tail) ht
            simpa using this
        have e2 : ['\n', '\n', '\n'].isPrefixOf ('\n' :: X) = false := by
          cases hb : ['\n', '\n', '\n'].isPrefixOf ('\n' :: X)
          · rfl
          · exfalso
            obtain ⟨t, ht⟩ := List.isPrefixOf_iff_prefix.mp hb
            apply hXhead
            refine ⟨'\n' :: t, ?_⟩
            have := congrArg (fun l => l.tail) ht
            simpa using this
        simp only [hasTriple, e1, e2, Bool.false_or]
        exact hX
      · simp only [collapseNLF, hp, if_false]
        have hY := ih cs (by simpa using Nat.le_of_succ_le_succ hlen)
        show hasTriple (c :: collapseNLF f cs) = false
        have e1 : ['\n', '\n', '\n'].isPrefixOf (c :: collapseNLF f cs) = false := by
          cases hb : ['\n', '\n', '\n'].isPrefixOf (c :: collapseNLF f cs)
          · rfl
          · exfalso
            obtain ⟨t, ht⟩ := List.isPrefixOf_iff_prefix.mp hb
            have hcn : c = '\n' := by
              have := congrArg (fun l => l.head?) ht
              simpa using this.symm
            subst hcn
            have hcs_nn : ¬ (['\n', '\n'] <+: cs) := by
              intro ⟨t2, ht2⟩
              apply hp
              apply List.isPrefixOf_iff_prefix.mpr
              exact ⟨t2, by rw [← ht2]; rfl⟩
            apply collapseNLF_no_nn f cs hcs_nn
            refine ⟨t, ?_⟩
            have := congrArg (fun l => l.tail) ht
            simpa using this
        simp only [hasTriple, e1, Bool.false_or]
        exact hY

/-- Collapsing is the identity on triple-free text. -/
theorem collapseNLF_of_no_triple :
    ∀ (fuel : Nat) (s : Str), hasTriple s = false → collapseNLF fuel s = s := by
  intro fuel
  induction fuel with
  | zero => intro s _; rfl
  | succ f ih =>
    intro s hs
    cases s with
    | nil => rfl
    | cons c cs =>
      have h1 : ['\n', '\n', '\n'].isPrefixOf (c :: cs) = false := by
        cases hb : ['\n', '\n', '\n'].isPrefixOf (c :: cs)
        · rfl
        · exfalso
          have htr : hasTriple (c :: cs) = true := by
            simp [hasTriple, hb]
          rw [hs] at htr
          cases htr
      have h2 : hasTriple cs = false := by
        cases hb : hasTriple cs
        · rfl
        · exfalso
          have htr : hasTriple (c :: cs) = true := by
            simp [hasTriple, hb]
          rw [hs] at htr
          cases htr
      simp only [collapseNLF, h1, Bool.false_eq_true, if_false]
      rw [ih cs h2]

/-- C5 amended: strip is idempotent on every text whose strip output contains
no annotation occurrence (in particular whenever deleting matched spans does
not create a fresh annotation by juxtaposition): a second strip finds nothing
to remove and the newline collapse is already saturated. In general a second
strip can differ, because removal can join surrounding text into a new
annotation that the first pass never rescans (see the counterexample). -/
theorem c5_strip_amended (t : Str)
    (h : parseEnchantments (removeAllEnchantments t) = []) :
    removeAllEnchantments (removeAllEnchantments t) = removeAllEnchantments t := by
  obtain ⟨h1, h2, h3, h4⟩ := parse_nil_noMatch (removeAllEnchantments t) h
  have htriple : hasTriple (removeAllEnchantments t) = false := by
    unfold removeAllEnchantments
    exact hasTriple_collapseNLF _ _ le_rfl
  conv_lhs => rw [removeAllEnchantments]
  rw [replaceAllEmpty_eq_self _ _ _ h3]
  rw [replaceAllEmpty_eq_self _ _ _ h4]
  rw [replaceAllEmpty_eq_self _ _ _ h1]
  rw [replaceAllEmpty_eq_self _ _ _ h2]
  exact collapseNLF_of_no_triple _ _ htriple

/-- Witness for C5 amended: a plain text with a four-newline run; its strip
output has no annotations, so stripping twice equals stripping once. -/
theorem c5_strip_amended_witness :
    removeAllEnchantments (removeAllEnchantments "hello\n\n\n\nworld".toList)
      = removeAllEnchantments "hello\n\n\n\nworld".toList :=
  c5_strip_amended "hello\n\n\n\nworld".toList (by decide)

/-- The non-greedy inline scan recovers a closer-free, newline-free payload
exactly, stopping at the first closer occurrence (which is the appended
one). -/
theorem scanInline_exact :
    ∀ (p r : Str), ¬ (inlineClose <:+: p) → '\n' ∉ p →
      scanInline (p ++ (']' :: ':' :: ':' :: r)) = some (p, r) := by
  intro p
  induction p with
  | nil =>
    intro r _ _
    show scanInline (']' :: ':' :: ':' :: r) = some ([], r)
    rw [scanInline]
    rw [if_pos]
    · rfl
    · exact List.isPrefixOf_iff_prefix.mpr ⟨r, rfl⟩
  | cons c p' ih =>
    intro r h1 h2
    show scanInline (c :: (p' ++ (']' :: ':' :: ':' :: r))) = some (c :: p', r)
    rw [scanInline]
    rw [if_neg, if_neg]
    · rw [ih r (fun hin => h1 (hin.trans ((List.suffix_cons c p').isInfix)))
        (fun hm => h2 (List.mem_cons_of_mem c hm))]
      rfl
    · intro hc
      subst hc
      exact h2 (List.mem_cons_self _ _)
    · intro hb
      obtain ⟨t, ht⟩ := List.isPrefixOf_iff_prefix.mp hb
      rw [show inlineClose = [']', ':', ':'] from rfl] at ht
      cases p' with
      | nil =>
        simp only [List.cons_append, List.nil_append, List.cons.injEq] at ht
        exact absurd ht.2.1 (by decide)
      | cons d p'' =>
        cases p'' with
        | nil =>
          simp only [List.cons_append, List.nil_append, List.cons.injEq] at ht
          exact absurd ht.2.2.1 (by decide)
        | cons e p''' =>
          simp only [List.cons_append, List.cons.injEq] at ht
          obtain ⟨hc', hd', he', _⟩ := ht
          exact h1 ⟨[], p''', by rw [← hc', ← hd', ← he']; rfl⟩

/-- A head match whose remainder is empty is the only match the global scan
records. -/
theorem gMatchesF_of_matchAt_rest_nil (opn : Str) (scan : Str → Option (Str × Str))
    (fuel : Nat) (c : Char) (cs : Str) (pl : Str) (j : Nat)
    (h : matchAt opn scan (c :: cs) = some (pl, [])) :
    gMatchesF opn scan (fuel + 1) (c :: cs) j = [(j, pl, j + (c :: cs).length)] := by
  simp only [gMatchesF, h, List.length_nil, Nat.sub_zero]
  have hnil : gMatchesF opn scan fuel [] (j + (c :: cs).length) = [] := by
    cases fuel <;> rfl
  rw [hnil]

/-- The global scan finds nothing when the opener is not an infix. -/
theorem gMatches_eq_nil_of_absent (opn : Str) (scan : Str → Option (Str × Str))
    (s : Str) (h : ¬ (opn <:+: s)) : gMatches opn scan s = [] :=
  gMatchesF_eq_nil opn scan s.length s 0
    (fun i => matchAt_eq_none opn scan (s.drop i)
      (fun hp => h (prefix_drop_isInfix hp)))

/-- The global scan finds nothing when some character of the opener does not
occur in the text. -/
theorem gMatches_eq_nil_of_mem (opn : Str) (scan : Str → Option (Str × Str))
    (s : Str) (c : Char) (hc : c ∈ opn) (hs : c ∉ s) :
    gMatches opn scan s = [] :=
  gMatches_eq_nil_of_absent opn scan s
    (fun hin => hs (hin.sublist.subset hc))

/-- The inline muse pattern matches a serialized inline block exactly once,
spanning the whole string. -/
theorem gMatches_inline_muse_single (p : Str)
    (h1 : ¬ (inlineClose <:+: p)) (h2 : '\n' ∉ p) :
    gMatches inlineMuseOpen scanInline (inlineMuseOpen ++ (p ++ inlineClose))
      = [(0, p, p.length + 10)] := by
  have hmatch : matchAt inlineMuseOpen scanInline
      (inlineMuseOpen ++ (p ++ inlineClose)) = some (p, []) := by
    unfold matchAt
    rw [if_pos (List.isPrefixOf_iff_prefix.mpr ⟨p ++ inlineClose, rfl⟩)]
    rw [List.drop_left]
    have : p ++ inlineClose = p ++ (']' :: ':' :: ':' :: []) := rfl
    rw [this]
    exact scanInline_exact p [] h1 h2
  have hlen : (inlineMuseOpen ++ (p ++ inlineClose)).length = p.length + 9 + 1 := by
    simp only [List.length_append]
    rw [show inlineMuseOpen.length = 7 from rfl, show inlineClose.length = 3 from rfl]
    omega
  have hcons : ∃ cs, inlineMuseOpen ++ (p ++ inlineClose) = ':' :: cs :=
    ⟨":muse[".toList ++ (p ++ inlineClose), rfl⟩
  obtain ⟨cs, hcs⟩ := hcons
  unfold gMatches
  rw [hlen, hcs]
  rw [hcs] at hmatch
  rw [gMatchesF_of_matchAt_rest_nil inlineMuseOpen scanInline (p.length + 9)
    ':' cs p 0 hmatch]
  rw [← hcs, hlen]
  simp

/-- C6 amended: for a payload with no `]::` substring, no newline and — as
the counterexample forces — no embedded `::whisper[` opener in the
serialized form, parsing the inline muse serialization yields exactly one
block, with the original payload, inline form, and the full span. -/
theorem c6_roundtrip_amended (p : Str)
    (h1 : ¬ (inlineClose <:+: p)) (h2 : '\n' ∉ p)
    (h3 : ¬ (inlineWhisperOpen <:+: (inlineMuseOpen ++ (p ++ inlineClose)))) :
    parseEnchantments (createMuseBlock p)
      = [⟨EKind.muse, p, false, 0, p.length + 10⟩] := by
  have hnl : '\n' ∉ inlineMuseOpen ++ (p ++ inlineClose) := by
    intro hmem
    rw [List.mem_append, List.mem_append] at hmem
    rcases hmem with h | h | h
    · exact absurd h (by decide)
    · exact h2 h
    · exact absurd h (by decide)
  have hcb : createMuseBlock p = inlineMuseOpen ++ (p ++ inlineClose) := by
    unfold createMuseBlock
    rw [if_neg]
    · rw [List.append_assoc]
    · intro hor
      rw [Bool.or_eq_true] at hor
      rcases hor with h | h
      · cases h
      · rw [List.contains_eq_any_beq] at h
        rw [List.any_eq_true] at h
        obtain ⟨x, hx, hbeq⟩ := h
        rw [beq_iff_eq] at hbeq
        subst hbeq
        exact h2 hx
  rw [hcb]
  unfold parseEnchantments
  rw [gMatches_inline_muse_single p h1 h2]
  rw [gMatches_eq_nil_of_absent inlineWhisperOpen scanInline _ h3]
  rw [gMatches_eq_nil_of_mem mlMuseOpen scanMultiline _ '\n' (by decide) hnl]
  rw [gMatches_eq_nil_of_mem mlWhisperOpen scanMultiline _ '\n' (by decide) hnl]
  simp [sortByStart, insertByStart]

/-- Witness for C6 amended at the payload `hello`. -/
theorem c6_roundtrip_amended_witness :
    parseEnchantments (createMuseBlock "hello".toList)
      = [⟨EKind.muse, "hello".toList, false, 0, 15⟩] :=
  c6_roundtrip_amended "hello".toList (by decide) (by decide) (by decide)

/-- The greedy bracket-free scan recovers a bracket-free payload followed by
the closer, leaving the remainder after the closer. -/
theorem scanNoBracket_exact (P tail : Str) (hP : ']' ∉ P) :
    scanNoBracket (P ++ (']' :: ':' :: ':' :: tail)) = some (P, tail) := by
  unfold scanNoBracket
  have hall : ∀ a ∈ P, (fun c => c ≠ ']' : Char → Bool) a = true := by
    intro a ha
    simp only [ne_eq, decide_eq_true_eq]
    intro he
    subst he
    exact hP ha
  have hpre : List.isPrefixOf inlineClose (']' :: ':' :: ':' :: tail) = true :=
    List.isPrefixOf_iff_prefix.mpr ⟨tail, rfl⟩
  rw [List.takeWhile_append_of_pos hall, List.dropWhile_append_of_pos hall]
  simp [hpre]

/-- The bracket-free rewrite pattern matches the placeholder span exactly,
at the start of its text. -/
theorem matchAt_noBracket_placeholder (P tail : Str) (hP : ']' ∉ P) :
    matchAt inlineMuseOpen scanNoBracket
      (inlineMuseOpen ++ (P ++ (']' :: ':' :: ':' :: tail))) = some (P, tail) := by
  unfold matchAt
  rw [if_pos (List.isPrefixOf_iff_prefix.mpr ⟨P ++ (']' :: ':' :: ':' :: tail), rfl⟩)]
  rw [List.drop_left]
  exact scanNoBracket_exact P tail hP

/-- The leftmost match of a pattern that fails at every position of `a` and
matches at the head of `b` splits `a ++ b` at the boundary. -/
theorem findFirstSplit_append (opn : Str) (scan : Str → Option (Str × Str))
    (hopn : opn ≠ []) :
    ∀ (a b : Str) (pl r : Str),
      (∀ i, i < a.length → matchAt opn scan (a.drop i ++ b) = none) →
      matchAt opn scan b = some (pl, r) →
      findFirstSplit opn scan (a ++ b) = some (a, pl, r) := by
  intro a
  induction a with
  | nil =>
    intro b pl r _ hb
    cases b with
    | nil =>
      rw [matchAt_eq_none opn scan [] (fun hp => hopn (List.prefix_nil.mp hp))] at hb
      cases hb
    | cons c cs =>
      show findFirstSplit opn scan (c :: cs) = some ([], pl, r)
      rw [findFirstSplit]
      rw [hb]
  | cons x a' ih =>
    intro b pl r ha hb
    show findFirstSplit opn scan (x :: (a' ++ b)) = some (x :: a', pl, r)
    rw [findFirstSplit]
    have h0 : matchAt opn scan (x :: (a' ++ b)) = none := by
      have := ha 0 (Nat.succ_pos _)
      simpa using this
    rw [h0]
    rw [ih b pl r (fun i hi => by simpa using ha (i + 1) (by simpa using hi)) hb]
    rfl

/-- No inline muse opener can match while still inside the pre-cursor text
and its two separating newlines: a full occurrence would either lie inside
the pre-cursor text (excluded by hypothesis) or cover one of the newlines
(impossible since the opener has no newline). -/
theorem no_museOpen_before_placeholder (pre z : Str)
    (hpre : ¬ (inlineMuseOpen <:+: pre)) :
    ∀ i, i < (pre ++ ['\n', '\n']).length →
      ¬ (inlineMuseOpen <+: ((pre ++ ['\n', '\n']).drop i ++ z)) := by
  intro i hi hcontra
  have hal : (pre ++ ['\n', '\n']).length = pre.length + 2 := by simp
  rw [hal] at hi
  by_cases hcase : i + 7 ≤ pre.length
  · apply hpre
    apply @prefix_drop_isInfix inlineMuseOpen pre i
    rw [List.prefix_iff_eq_take] at hcontra ⊢
    have hlen : inlineMuseOpen.length = 7 := rfl
    rw [hlen] at hcontra ⊢
    rw [hcontra]
    rw [List.drop_append_of_le_length (by omega)]
    rw [List.append_assoc]
    rw [List.take_append_of_le_length (by rw [List.length_drop]; omega)]
  · have hnotmem : '\n' ∉ inlineMuseOpen := by decide
    obtain ⟨j, hj7, hjhi, hjlo⟩ : ∃ j, j < 7 ∧ i + j < pre.length + 2 ∧
        pre.length ≤ i + j := by
      by_cases hile : i ≤ pre.length
      · exact ⟨pre.length - i, by omega, by omega, by omega⟩
      · exact ⟨0, by omega, by omega, by omega⟩
    have hjlen : j < inlineMuseOpen.length := by
      rw [show inlineMuseOpen.length = 7 from rfl]
      omega
    have hjd : j < ((pre ++ ['\n', '\n']).drop i).length := by
      rw [List.length_drop, hal]
      omega
    have h1 := hcontra.getElem hjlen
    rw [List.getElem_append_left hjd] at h1
    rw [List.getElem_drop] at h1
    have hlt : i + j < (pre ++ ['\n', '\n']).length := by
      rw [hal]
      omega
    have h2 : (pre ++ ['\n', '\n'])[i + j] = '\n' := by
      rw [List.getElem_append_right hjlo]
      have hor : i + j - pre.length = 0 ∨ i + j - pre.length = 1 := by omega
      rcases hor with h | h <;> simp [h]
    rw [h2] at h1
    exact hnotmem (h1 ▸ List.getElem_mem hjlen)

/-- One chunk rewrite on a well-formed placeholder document relocates the
placeholder by pattern match and replaces exactly its payload. -/
theorem rewritePlaceholder_museDocShape (pre P post acc : Str)
    (hpre : ¬ (inlineMuseOpen <:+: pre)) (hP : ']' ∉ P) :
    rewritePlaceholder (museDocShape pre P post) acc = museDocShape pre acc post := by
  have hshape : museDocShape pre P post =
      (pre ++ ['\n', '\n']) ++
        (inlineMuseOpen ++ (P ++ (']' :: ':' :: ':' :: (' ' :: ' ' :: post)))) := by
    unfold museDocShape
    rw [List.append_assoc]
    rfl
  have hmatch : matchAt inlineMuseOpen scanNoBracket
      (inlineMuseOpen ++ (P ++ (']' :: ':' :: ':' :: (' ' :: ' ' :: post))))
      = some (P, ' ' :: ' ' :: post) :=
    matchAt_noBracket_placeholder P (' ' :: ' ' :: post) hP
  have hfind : findFirstSplit inlineMuseOpen scanNoBracket (museDocShape pre P post)
      = some (pre ++ ['\n', '\n'], P, ' ' :: ' ' :: post) := by
    rw [hshape]
    exact findFirstSplit_append inlineMuseOpen scanNoBracket (by decide)
      (pre ++ ['\n', '\n']) _ P (' ' :: ' ' :: post)
      (fun i hi => matchAt_eq_none _ _ _ (no_museOpen_before_placeholder pre _ hpre i hi))
      hmatch
  unfold rewritePlaceholder
  rw [hfind]
  unfold museDocShape
  simp [List.append_assoc]

/-- Streaming a nonempty chunk list through a well-formed placeholder
document leaves the document with the placeholder payload equal to the
concatenation of the accumulator and all chunks. -/
theorem streamChunksGo_shape (pre post : Str)
    (hpre : ¬ (inlineMuseOpen <:+: pre)) :
    ∀ (chunks : List Str) (acc P : Str), ']' ∉ P → ']' ∉ acc →
      (∀ c ∈ chunks, ']' ∉ c) → chunks ≠ [] →
      streamChunksGo (museDocShape pre P post) acc chunks
        = museDocShape pre (acc ++ chunks.flatten) post := by
  intro chunks
  induction chunks with
  | nil =>
    intro acc P _ _ _ hne
    exact absurd rfl hne
  | cons c cs ih =>
    intro acc P hP hacc hch _
    have haccc : ']' ∉ acc ++ c := by
      intro hm
      rcases List.mem_append.mp hm with h | h
      · exact hacc h
      · exact hch c (List.mem_cons_self _ _) h
    show streamChunksGo
      (rewritePlaceholder (museDocShape pre P post) (acc ++ c)) (acc ++ c) cs = _
    rw [rewritePlaceholder_museDocShape pre P post (acc ++ c) hpre hP]
    cases cs with
    | nil =>
      show museDocShape pre (acc ++ c) post = _
      simp
    | cons d ds =>
      rw [ih (acc ++ c) (acc ++ c) haccc haccc
        (fun x hx => hch x (List.mem_cons_of_mem _ hx)) (by simp)]
      simp [List.append_assoc]

/-- C2 amended: with the trigger at offset `|pre|` in document `pre ++ post`,
provided the pre-cursor text contains no `::muse[` occurrence and no chunk
contains `]`, streaming the whole chunk list rewrites the placeholder — 
relocated by pattern match on the current text at every step — so that its
payload equals the concatenation of all chunks, with the surrounding text
unchanged. -/
theorem c2_stream_amended (pre post : Str) (chunks : List Str)
    (hpre : ¬ (inlineMuseOpen <:+: pre)) (hch : ∀ c ∈ chunks, ']' ∉ c)
    (hne : chunks ≠ []) :
    streamChunks (insertAt (pre ++ post) pre.length placeholderText) chunks
      = museDocShape pre chunks.flatten post := by
  have hins : insertAt (pre ++ post) pre.length placeholderText
      = museDocShape pre ("...".toList) post := by
    unfold insertAt
    rw [List.take_left, List.drop_left]
    unfold museDocShape placeholderText
    rw [List.append_assoc]
    rfl
  rw [hins]
  unfold streamChunks
  rw [streamChunksGo_shape pre post hpre chunks [] "...".toList (by decide) (by decide)
    hch hne]
  simp

/-- Witness for C2 amended: document `Hi` with the cursor at its end and two
chunks ending with the placeholder payload `AB`. -/
theorem c2_stream_amended_witness :
    streamChunks (insertAt ("Hi".toList ++ []) "Hi".toList.length placeholderText)
      ["A".toList, "B".toList]
      = museDocShape "Hi".toList (["A".toList, "B".toList]).flatten [] :=
  c2_stream_amended "Hi".toList [] ["A".toList, "B".toList] (by decide)
    (by decide) (by decide)
